import Mathlib

/-!
# Shallow embedding of tfvenv's provider plugin cache reconciliation engine

This file embeds, in Lean 4, the core of the tfvenv cleanup subsystem:

* `cleanDuplicateProviders` (Pass A, duplicate removal),
* `cleanUnusedProviders` (Pass B, unused removal),
* `collectUsedProviders` (used-set construction from HCL configuration),
* `resolveProviderVersion` / `getProviderAvailableVersions` (version resolution),
* `getEnvironments` (environment enumeration),

together with models of the external collaborators they call:

* the filesystem walk order is represented by a `List` of cache files,
* HCL parsing results are represented by an explicit syntax-tree type
  (`HclBody`) following the behaviour of `hcl.Body.Content` /
  `hcl.Body.PartialContent`,
* the hashicorp `go-version` library (version parsing, comparison,
  constraint checking) is modelled from its documented behaviour,
* the registry HTTP endpoint is an explicit response table.

Machine strings are Lean `String`s; Go's string-manipulation primitives
(`strings.Split`, `strings.TrimPrefix`, `strings.TrimSuffix`,
`strings.HasPrefix`, `filepath.Ext`, ...) are re-implemented below by
structural recursion over the character list of the string, so that every
definition evaluates by kernel reduction on concrete inputs.  The inputs the
engine handles are ASCII, where Go's byte-wise semantics and the char-wise
semantics here agree.
-/

namespace Tfvenv

/-- Decidable equality for `Except`, so that concrete runs of the engine can
be checked by `decide`. -/
instance {α β : Type} [DecidableEq α] [DecidableEq β] : DecidableEq (Except α β) :=
  fun x y =>
    match x, y with
    | .ok a, .ok b =>
      if h : a = b then isTrue (by rw [h]) else isFalse (fun hh => h (Except.ok.inj hh))
    | .error a, .error b =>
      if h : a = b then isTrue (by rw [h]) else isFalse (fun hh => h (Except.error.inj hh))
    | .ok _, .error _ => isFalse (fun hh => Except.noConfusion hh)
    | .error _, .ok _ => isFalse (fun hh => Except.noConfusion hh)

/-- Whether the first character list is a prefix of the second
(Go `strings.HasPrefix`). -/
def hasPfx : List Char → List Char → Bool
  | [], _ => true
  | _ :: _, [] => false
  | p :: ps, c :: cs => p = c && hasPfx ps cs

/-- Go's `strings.HasPrefix` on strings. -/
def goStartsWith (s pre : String) : Bool :=
  hasPfx pre.toList s.toList

/-- Go's `strings.HasSuffix` on strings. -/
def goEndsWith (s suf : String) : Bool :=
  hasPfx suf.toList.reverse s.toList.reverse

/-- Fuel-driven worker for Go's `strings.Split` with a non-empty separator:
scan left to right, emitting the current token at each non-overlapping
occurrence of the separator.  The fuel exceeds the length of the scanned
list, so the fallback case is never reached on the initial call. -/
def goSplitAux (sep : List Char) : Nat → List Char → List Char → List (List Char)
  | 0, cur, s => [cur.reverse ++ s]
  | _ + 1, cur, [] => [cur.reverse]
  | fuel + 1, cur, c :: cs =>
    if hasPfx sep (c :: cs) then
      cur.reverse :: goSplitAux sep fuel [] ((c :: cs).drop sep.length)
    else
      goSplitAux sep fuel (c :: cur) cs

/-- Go's `strings.Split` (non-empty separator). -/
def goSplit (s sep : String) : List String :=
  (goSplitAux sep.toList (s.toList.length + 1) [] s.toList).map String.mk

/-- Go's `strings.TrimPrefix`: drop `pre` when it is a prefix, else unchanged. -/
def trimPfx (s pre : String) : String :=
  if goStartsWith s pre then String.mk (s.toList.drop pre.toList.length) else s

/-- Go's `strings.TrimSuffix`: drop `suf` when it is a suffix, else unchanged. -/
def trimSfx (s suf : String) : String :=
  if goEndsWith s suf then
    String.mk (s.toList.take (s.toList.length - suf.toList.length))
  else s

/-- Drop the first `n` characters of a string. -/
def strDrop (s : String) (n : Nat) : String :=
  String.mk (s.toList.drop n)

/-- Parse a non-empty all-digit character list as a natural number
(Go `strconv.Atoi` on such input). -/
def digitsToNat (acc : Nat) : List Char → Nat
  | [] => acc
  | c :: cs => digitsToNat (acc * 10 + (c.toNat - 48)) cs

/-- Parse a decimal numeral string; `none` unless it is non-empty and all
digits. -/
def goToNat (s : String) : Option Nat :=
  let cs := s.toList
  if cs ≠ [] && cs.all Char.isDigit then some (digitsToNat 0 cs) else none

/-- Go's `strings.TrimSpace`: strip whitespace from both ends. -/
def goTrim (s : String) : String :=
  String.mk (((s.toList.dropWhile Char.isWhitespace).reverse.dropWhile
    Char.isWhitespace).reverse)

/-- Byte-wise (here: character-wise) lexicographic strict order on character
lists, Go's `<` on strings over ASCII. -/
def charsLt : List Char → List Char → Bool
  | [], [] => false
  | [], _ :: _ => true
  | _ :: _, [] => false
  | a :: as, b :: bs => a < b || (a = b && charsLt as bs)

/-- Go's `<` on strings (ASCII). -/
def goStrLt (p q : String) : Bool :=
  charsLt p.toList q.toList

/-- Go's `filepath.Ext` applied to a base filename: the suffix beginning at the
final dot, or `""` when the name has no dot. -/
def extOf (s : String) : String :=
  let cs := s.toList
  if cs.contains '.' then
    String.mk ('.' :: (cs.reverse.takeWhile (fun c => c ≠ '.')).reverse)
  else ""

/-- One regular file met by `filepath.Walk` over the plugin cache: its full
path and its base name (`info.Name()`).  The cache is a list of such files in
traversal order; directories are skipped by both passes and are omitted. -/
structure CacheFile where
  path : String
  name : String
  deriving DecidableEq, Repr

/-- The filename parsing done by Pass A (`cleanDuplicateProviders`): a file is
considered only when its name has the `terraform-provider-` prefix; the name is
split on every occurrence of `"_v"` (Go `strings.Split`), and only an exact
two-part split is accepted.  The duplicate-tracking key is
`<provider>_<version>` where `<provider>` strips the prefix from the first part
and `<version>` strips a `.zip` suffix from the second. -/
def parseAKey (filename : String) : Option String :=
  if goStartsWith filename "terraform-provider-" then
    let parts := goSplit filename "_v"
    if parts.length = 2 then
      let provider := trimPfx ((parts.get? 0).getD "") "terraform-provider-"
      let version := trimSfx ((parts.get? 1).getD "") ".zip"
      some (provider ++ "_" ++ version)
    else none
  else none

/-- The filename parsing done by Pass B (`cleanUnusedProviders`): a file is
considered only with the `terraform-provider-` prefix; the extension
(`filepath.Ext`) is trimmed, the base name is split on `"_"`, at least two
parts are required, and the used-set key is `<provider>_<version>` where
`<provider>` strips the prefix from part 0 and `<version>` strips a leading
`v` from part 1. -/
def parseBKey (filename : String) : Option String :=
  if goStartsWith filename "terraform-provider-" then
    let baseName := trimSfx filename (extOf filename)
    let parts := goSplit baseName "_"
    if parts.length < 2 then none
    else
      let provider := trimPfx ((parts.get? 0).getD "") "terraform-provider-"
      let version := trimPfx ((parts.get? 1).getD "") "v"
      some (provider ++ "_" ++ version)
  else none

/-- The walk of `cleanDuplicateProviders`, carrying the `uniqueProviders` set
(`seen`).  Returns `(kept, deleted)` in traversal order: a parsable file whose
key was already seen is removed; the first file for a key records the key and
is kept; unparsable or non-provider files are kept. -/
def passAAux : List String → List CacheFile → List CacheFile × List CacheFile
  | _, [] => ([], [])
  | seen, f :: fs =>
    match parseAKey f.name with
    | none =>
      let r := passAAux seen fs
      (f :: r.1, r.2)
    | some key =>
      if seen.contains key then
        let r := passAAux seen fs
        (r.1, f :: r.2)
      else
        let r := passAAux (key :: seen) fs
        (f :: r.1, r.2)

/-- Pass A, `cleanDuplicateProviders`, as a function on the traversal-ordered cache:
`(surviving files, deleted files)`. -/
def cleanDuplicateProviders (cache : List CacheFile) : List CacheFile × List CacheFile :=
  passAAux [] cache

/-- The deletion walk of `cleanUnusedProviders` once a non-empty used set has
been built: a parsable provider file whose key is absent from `used` is
deleted; everything else is kept.  Returns `(kept, deleted)`. -/
def passBAux (used : List String) : List CacheFile → List CacheFile × List CacheFile
  | [] => ([], [])
  | f :: fs =>
    let r := passBAux used fs
    match parseBKey f.name with
    | none => (f :: r.1, r.2)
    | some key => if used.contains key then (f :: r.1, r.2) else (r.1, f :: r.2)

/-! ## Model of the hashicorp `go-version` library

`resolveProviderVersion` and `getProviderAvailableVersions` delegate version
parsing, ordering and constraint checking to the external
`github.com/hashicorp/go-version` dependency.  The definitions below model
that library's documented behaviour: a parsed version stores its numeric
segments padded with zeros to at least three, the number of segments actually
written (`si`), the prerelease tag, and the original input string. -/

/-- A parsed semantic version, as built by go-version's `NewVersion`. -/
structure GoVersion where
  segments : List Nat
  si : Nat
  pre : String
  original : String
  deriving DecidableEq, Repr

/-- Characters go-version's regular expression admits inside a prerelease or
metadata part. -/
def goVersionPartChar (c : Char) : Bool :=
  c.isDigit || c.isAlpha || c = '-' || c = '~' || c = '.'

/-- Parse the dotted numeric core `1.2.3` into segments. -/
def parseSegments (core : String) : Option (List Nat) :=
  let comps := goSplit core "."
  if comps.all (fun c => c ≠ "" && c.toList.all Char.isDigit) then
    some (comps.map (fun c => (goToNat c).getD 0))
  else none

/-- go-version's `NewVersion`: strip an optional leading `v`, split off
`+metadata`, split off the prerelease at the first non-core character, parse
the dotted numeric core, and pad the segments with zeros to at least three.
Returns `none` when the string does not match the version shape. -/
def goVersionParse (s : String) : Option GoVersion :=
  let body := if goStartsWith s "v" then strDrop s 1 else s
  let beforeMeta := ((goSplit body "+").get? 0).getD ""
  let meta := (goSplit body "+").drop 1
  if meta.all (fun m => m ≠ "" && m.toList.all goVersionPartChar) then
    let coreChars := beforeMeta.toList.takeWhile (fun c => c.isDigit || c = '.')
    let restChars := beforeMeta.toList.drop coreChars.length
    let core := String.mk coreChars
    let pre :=
      match restChars with
      | [] => ""
      | '-' :: rest => String.mk rest
      | rest => String.mk rest
    if (restChars = [] || pre ≠ "") && pre.toList.all goVersionPartChar then
      match parseSegments core with
      | none => none
      | some segs =>
        let padded := segs ++ List.replicate (3 - segs.length) 0
        some ⟨padded, segs.length, pre, s⟩
    else none
  else none

/-- Zero-filled lexicographic comparison of segment lists, as in go-version's
`Compare` loop: iterate to the longer length, treating missing segments as 0;
the first differing position decides. -/
def segCompareNil : List Nat → Int
  | [] => 0
  | b :: bs => if b > 0 then -1 else segCompareNil bs

/-- Zero-filled lexicographic comparison, continued: first list versus the
zero-extension. -/
def segCompare : List Nat → List Nat → Int
  | [], bs => segCompareNil bs
  | a :: as, [] => if a > 0 then 1 else segCompare as []
  | a :: as, b :: bs => if a < b then -1 else if b < a then 1 else segCompare as bs

/-- go-version's `comparePart` on one prerelease component: equal strings tie;
a numeric part is smaller than a non-numeric one; two numeric parts compare as
integers; two non-numeric parts compare as strings. -/
def comparePart (p q : String) : Int :=
  if p = q then 0
  else
    match goToNat p, goToNat q with
    | some _, none => -1
    | none, some _ => 1
    | some i, some j => if i > j then 1 else if i < j then -1 else 0
    | none, none => if goStrLt q p then 1 else -1

/-- Pairwise comparison of prerelease components, filling missing parts with
`""`, first non-tie decides. -/
def comparePartsNil : List String → Int
  | [] => 0
  | q :: qs => let c := comparePart "" q; if c ≠ 0 then c else comparePartsNil qs

/-- Pairwise comparison of prerelease components, filling missing parts with
`""`; the first non-tie decides. -/
def comparePartsList : List String → List String → Int
  | [], qs => comparePartsNil qs
  | p :: ps, [] => let c := comparePart p ""; if c ≠ 0 then c else comparePartsList ps []
  | p :: ps, q :: qs => let c := comparePart p q; if c ≠ 0 then c else comparePartsList ps qs

/-- go-version's `comparePrereleases`: split both tags on `.` and compare the
parts pairwise with `comparePart`. -/
def comparePrereleases (p q : String) : Int :=
  if p = q then 0 else comparePartsList (goSplit p ".") (goSplit q ".")

/-- go-version's `Version.Compare`: identical segment lists compare by
prerelease (a release outranks any prerelease of the same segments);
otherwise the zero-filled segment comparison decides. -/
def versionCompare (v w : GoVersion) : Int :=
  if v.segments = w.segments then
    if v.pre = "" && w.pre = "" then 0
    else if v.pre = "" then 1
    else if w.pre = "" then -1
    else comparePrereleases v.pre w.pre
  else segCompare v.segments w.segments

/-- The constraint operators accepted by go-version's `NewConstraint`. -/
inductive ConstraintOp where
  | eq | neq | gt | lt | ge | le | pessimistic
  deriving DecidableEq, Repr

/-- One parsed constraint: an operator and its reference version. -/
structure VersionConstraint where
  op : ConstraintOp
  ref : GoVersion
  deriving DecidableEq, Repr

/-- Split one constraint part into operator token and version text. -/
def splitConstraintOp (s : String) : String × String :=
  if goStartsWith s "<=" then ("<=", strDrop s 2)
  else if goStartsWith s ">=" then (">=", strDrop s 2)
  else if goStartsWith s "!=" then ("!=", strDrop s 2)
  else if goStartsWith s "~>" then ("~>", strDrop s 2)
  else if goStartsWith s "=" then ("=", strDrop s 1)
  else if goStartsWith s ">" then (">", strDrop s 1)
  else if goStartsWith s "<" then ("<", strDrop s 1)
  else ("", s)

/-- Parse one comma-separated constraint part, e.g. `">= 4.0"`. -/
def parseConstraintPart (s : String) : Option VersionConstraint :=
  let t := goTrim s
  let (opTok, rest) := splitConstraintOp t
  let op : ConstraintOp :=
    if opTok = "<=" then .le
    else if opTok = ">=" then .ge
    else if opTok = "!=" then .neq
    else if opTok = "~>" then .pessimistic
    else if opTok = ">" then .gt
    else if opTok = "<" then .lt
    else .eq
  match goVersionParse (goTrim rest) with
  | none => none
  | some v => some ⟨op, v⟩

/-- go-version's `NewConstraint`: split on commas and parse every part; any
invalid part invalidates the whole constraint expression. -/
def newConstraint (s : String) : Option (List VersionConstraint) :=
  let parts := (goSplit s ",").map parseConstraintPart
  if parts.all Option.isSome then some (parts.filterMap id) else none

/-- go-version's `prereleaseCheck`: a constraint with a prerelease only
matches a prerelease version with identical segments; a constraint without a
prerelease never matches a prerelease version. -/
def prereleaseCheck (v c : GoVersion) : Bool :=
  if c.pre ≠ "" && v.pre ≠ "" then v.segments = c.segments
  else if c.pre = "" && v.pre ≠ "" then false
  else true

/-- go-version's pessimistic (`~>`) operator: the version must not be below
the reference, must be at least as specific, and must agree with the
reference on every written segment but the last. -/
def pessimisticCheck (v c : GoVersion) : Bool :=
  if ¬ prereleaseCheck v c || (c.pre ≠ "" && v.pre = "") then false
  else if versionCompare v c < 0 then false
  else if c.si > v.si then false
  else (List.range (c.si - 1)).all
    (fun i => ((v.segments.get? i).getD 0) = ((c.segments.get? i).getD 0))

/-- go-version's `Constraint.Check` for a single constraint. -/
def checkConstraint (c : VersionConstraint) (v : GoVersion) : Bool :=
  match c.op with
  | .eq => versionCompare v c.ref = 0
  | .neq => versionCompare v c.ref ≠ 0
  | .gt => prereleaseCheck v c.ref && versionCompare v c.ref > 0
  | .lt => prereleaseCheck v c.ref && versionCompare v c.ref < 0
  | .ge => prereleaseCheck v c.ref && versionCompare v c.ref ≥ 0
  | .le => prereleaseCheck v c.ref && versionCompare v c.ref ≤ 0
  | .pessimistic => pessimisticCheck v c.ref

/-- Model of `Constraints.Check`: all comma-separated constraints must hold. -/
def checkConstraints (cs : List VersionConstraint) (v : GoVersion) : Bool :=
  cs.all (fun c => checkConstraint c v)

/-- Insert a version into a descending-sorted list, modelling
`sort.Sort(sort.Reverse(version.Collection(...)))`. -/
def insertDesc (v : GoVersion) : List GoVersion → List GoVersion
  | [] => [v]
  | w :: ws => if versionCompare v w ≥ 0 then v :: w :: ws else w :: insertDesc v ws

/-- Descending sort of the available versions by `versionCompare`. -/
def sortVersionsDesc : List GoVersion → List GoVersion
  | [] => []
  | v :: vs => insertDesc v (sortVersionsDesc vs)

/-! ## Registry access and version resolution -/

/-- The registry's version-listing endpoint, as data: for each provider name
under the `hashicorp` namespace, either a transport/HTTP/decode error or the
decoded list of version strings from the JSON body.  A provider absent from
the table behaves as a failed request. -/
def Registry := List (String × Except String (List String))

/-- Look up a provider's registry response. -/
def registryLookup (reg : Registry) (provider : String) : Except String (List String) :=
  match reg.find? (fun e => e.1 = provider) with
  | some e => e.2
  | none => .error "request failed"

/-- Model of `getProviderAvailableVersions`: split the source on `/`, require exactly
two parts and the `hashicorp` publisher, query the registry, and parse each
returned version string, dropping invalid ones with a warning. -/
def getProviderAvailableVersions (reg : Registry) (source : String) :
    Except String (List GoVersion) :=
  let parts := goSplit source "/"
  if parts.length ≠ 2 then .error ("unsupported provider source format: " ++ source)
  else
    let publisher := (parts.get? 0).getD ""
    let provider := (parts.get? 1).getD ""
    if publisher ≠ "hashicorp" then
      .error "only hashicorp provider sources are supported currently"
    else
      match registryLookup reg provider with
      | .error e => .error ("failed to fetch provider versions: " ++ e)
      | .ok strs => .ok (strs.filterMap goVersionParse)

/-- Model of `resolveProviderVersion`: fetch the available versions, parse the
constraint, sort the versions descending, and return the first (highest)
version satisfying the constraint in its original string form; error when the
fetch fails, the constraint is invalid, or nothing matches. -/
def resolveProviderVersion (reg : Registry) (source constraint : String) :
    Except String String :=
  match getProviderAvailableVersions reg source with
  | .error e => .error ("failed to fetch available versions for provider " ++ source ++ ": " ++ e)
  | .ok availableVersions =>
    match newConstraint constraint with
    | none => .error ("invalid version constraint '" ++ constraint ++ "' for provider " ++ source)
    | some vConstraint =>
      match (sortVersionsDesc availableVersions).find? (fun v => checkConstraints vConstraint v) with
      | some v => .ok v.original
      | none => .error ("no versions found for provider " ++ source ++ " matching constraint '" ++ constraint ++ "'")

/-- Model of `extractProviderShortName`: `"hashicorp/aws"` becomes `"aws"`; a source
that does not split into exactly two parts is returned whole. -/
def extractProviderShortName (source : String) : String :=
  let parts := goSplit source "/"
  if parts.length = 2 then (parts.get? 1).getD "" else source

/-! ## Model of parsed HCL configuration

`collectUsedProviders` parses `.tf` files with `hclparse` and navigates them
with `hcl.Body.PartialContent` / `hcl.Body.Content`.  A parsed body is
modelled as its attributes (name, result of evaluating the attribute's
expression with a nil context) and its nested blocks (type, body).  Labels on
blocks are not modelled: the schemas used by the engine declare none. -/

/-- A `cty` value as produced by `hcl.Expression.Value(nil)`: a string, or an
object (e.g. `{ source = ..., version = ... }`), whose `AsString` would
panic. -/
inductive CtyValue where
  | str (s : String)
  | obj (fields : List (String × String))
  deriving DecidableEq, Repr

/-- Model of `cty.Value.AsString`: succeeds only on strings; on any other value the Go
call panics. -/
def asStringOk : CtyValue → Option String
  | .str s => some s
  | .obj _ => none

/-- A parsed HCL body: attribute name/value pairs (the value is the result of
evaluating the attribute expression, which may carry diagnostics) and nested
blocks as type/body pairs. -/
inductive HclBody where
  | mk (attrs : List (String × Except String CtyValue)) (blocks : List (String × HclBody))

/-- The attributes of a body. -/
def HclBody.attrs : HclBody → List (String × Except String CtyValue)
  | .mk a _ => a

/-- The blocks of a body. -/
def HclBody.blocks : HclBody → List (String × HclBody)
  | .mk _ b => b

/-- Model of `hcl.Body.PartialContent` with a schema naming one label-less block type:
extraneous content is tolerated, and the blocks of the requested type are
returned in order. -/
def partialBlocksOfType (b : HclBody) (ty : String) : List HclBody :=
  (b.blocks.filter (fun e => e.1 = ty)).map (fun e => e.2)

/-- Model of `hcl.Body.Content` with a schema of optional attributes `source` and
`version` and no block types: any attribute with another name, and any nested
block at all, is reported as an error diagnostic ("unsupported argument" /
"unexpected block"), which the engine treats as a failure of the whole
`required_providers` block. -/
def contentSourceVersion (b : HclBody) : Except String (List (String × Except String CtyValue)) :=
  if b.attrs.all (fun a => a.1 = "source" || a.1 = "version") && b.blocks.isEmpty then
    .ok b.attrs
  else .error "unsupported argument"

/-- One `.tf` file: its path and the result of `hclparse.ParseHCLFile`
(diagnostics, or the parsed body). -/
structure TfFile where
  path : String
  parsed : Except String HclBody

/-- The per-environment filesystem, as data: for each environment name, the
result of `filepath.Glob` over its configuration directory.  An environment
absent from the table has no `.tf` files (Go's `Glob` returns an empty match
list, not an error, for a missing directory). -/
def EnvFS := List (String × Except String (List TfFile))

/-- Glob result for one environment. -/
def envGlob (fs : EnvFS) (env : String) : Except String (List TfFile) :=
  match fs.find? (fun e => e.1 = env) with
  | some e => e.2
  | none => .ok []

/-! ## `collectUsedProviders`

The used-set accumulator mirrors the Go `map[string]bool`: a list of keys
without duplicates (`insertKey`).  Go map iteration order does not affect the
resulting set, so attribute iteration follows list order.  A computation that
would panic in Go (`AsString` on a non-string value) is `none`; every other
failure is recovered by skipping, exactly as in the source. -/

/-- Insert a key into the used-set model if not already present. -/
def insertKey (m : List String) (k : String) : List String :=
  if m.contains k then m else m ++ [k]

/-- Processing of one attribute of a `required_providers` block body (one
iteration of the `for providerName, attr := range rpContent.Attributes` loop):
the attribute's own value is used as the provider source, while the version
constraint is looked up under the fixed name `"version"` in the full attribute
map.  Expression-evaluation diagnostics, a missing version attribute, and
resolution failure skip the entry; `AsString` on a non-string value panics
(`none`). -/
def procProviderAttr (reg : Registry) (allAttrs : List (String × Except String CtyValue))
    (exprVal : Except String CtyValue) (acc : List String) : Option (List String) :=
  match exprVal with
  | .error _ => some acc
  | .ok v =>
    match asStringOk v with
    | none => none
    | some sourceStr =>
      match allAttrs.find? (fun a => a.1 = "version") with
      | none => some acc
      | some versionAttr =>
        match versionAttr.2 with
        | .error _ => some acc
        | .ok vv =>
          match asStringOk vv with
          | none => none
          | some versionStr =>
            match resolveProviderVersion reg sourceStr versionStr with
            | .error _ => some acc
            | .ok exactVersion =>
              some (insertKey acc (extractProviderShortName sourceStr ++ "_" ++ exactVersion))

/-- Fold `procProviderAttr` over the attributes of a `required_providers`
block body. -/
def procAttrList (reg : Registry) (allAttrs : List (String × Except String CtyValue)) :
    List (String × Except String CtyValue) → List String → Option (List String)
  | [], acc => some acc
  | a :: rest, acc =>
    match procProviderAttr reg allAttrs a.2 acc with
    | none => none
    | some acc' => procAttrList reg allAttrs rest acc'

/-- Process one `required_providers` block: `Content` failure skips the whole
block, otherwise its attributes are processed in order. -/
def procRpBlock (reg : Registry) (rpBlock : HclBody) (acc : List String) : Option (List String) :=
  match contentSourceVersion rpBlock with
  | .error _ => some acc
  | .ok attrs => procAttrList reg attrs attrs acc

/-- Fold over a list of `required_providers` blocks. -/
def procRpBlocks (reg : Registry) : List HclBody → List String → Option (List String)
  | [], acc => some acc
  | b :: bs, acc =>
    match procRpBlock reg b acc with
    | none => none
    | some acc' => procRpBlocks reg bs acc'

/-- Process one `terraform` block: gather its `required_providers` blocks via
`PartialContent` and process them. -/
def procTerraformBlock (reg : Registry) (block : HclBody) (acc : List String) : Option (List String) :=
  procRpBlocks reg (partialBlocksOfType block "required_providers") acc

/-- Fold over a list of `terraform` blocks. -/
def procTerraformBlocks (reg : Registry) : List HclBody → List String → Option (List String)
  | [], acc => some acc
  | b :: bs, acc =>
    match procTerraformBlock reg b acc with
    | none => none
    | some acc' => procTerraformBlocks reg bs acc'

/-- Process one `.tf` file: a parse failure is logged and skipped; otherwise
the file's `terraform` blocks are processed. -/
def procTfFile (reg : Registry) (f : TfFile) (acc : List String) : Option (List String) :=
  match f.parsed with
  | .error _ => some acc
  | .ok body => procTerraformBlocks reg (partialBlocksOfType body "terraform") acc

/-- Fold over the `.tf` files of one environment. -/
def procTfFiles (reg : Registry) : List TfFile → List String → Option (List String)
  | [], acc => some acc
  | f :: fs, acc =>
    match procTfFile reg f acc with
    | none => none
    | some acc' => procTfFiles reg fs acc'

/-- Process one environment: a glob failure or an environment without `.tf`
files is skipped with a warning; otherwise its files are processed in order. -/
def procEnv (reg : Registry) (fs : EnvFS) (env : String) (acc : List String) : Option (List String) :=
  match envGlob fs env with
  | .error _ => some acc
  | .ok tfFiles =>
    if tfFiles.length = 0 then some acc
    else procTfFiles reg tfFiles acc

/-- Fold over the environments. -/
def procEnvs (reg : Registry) (fs : EnvFS) : List String → List String → Option (List String)
  | [], acc => some acc
  | e :: es, acc =>
    match procEnv reg fs e acc with
    | none => none
    | some acc' => procEnvs reg fs es acc'

/-- Model of `collectUsedProviders`: build the used-provider key set over all
environments.  The Go function's only return statement is
`return usedProviders, nil`, so the error component is the literal `none`;
`none` at the outer `Option` marks the one abnormal exit (a `cty` panic),
which is not an error return. -/
def collectUsedProviders (envs : List String) (fs : EnvFS) (reg : Registry) :
    Option (List String × Option String) :=
  match procEnvs reg fs envs [] with
  | none => none
  | some used => some (used, none)

/-! ## Environment enumeration and Pass B driver -/

/-- One entry of `os.ReadDir`. -/
structure DirEntry where
  name : String
  isDir : Bool
  deriving DecidableEq, Repr

/-- Model of `getEnvironments`: read the base directory's `config` subpath; failure to
read it is an error; otherwise the names of its subdirectories, in order. -/
def getEnvironments (readDirResult : Except String (List DirEntry)) :
    Except String (List String) :=
  match readDirResult with
  | .error e => .error ("failed to read config directory: " ++ e)
  | .ok entries => .ok ((entries.filter (fun e => e.isDir)).map (fun e => e.name))

/-- The result of one `cleanUnusedProviders` call: the surviving cache files,
the deleted cache files, and the function's returned error. -/
structure PassBResult where
  kept : List CacheFile
  deleted : List CacheFile
  result : Except String Unit
  deriving DecidableEq, Repr

/-- Model of `cleanUnusedProviders`: list the environments (failure aborts before any
deletion); an empty environment list skips cleanup; collect the used
providers (the error branch mirrors the source's dead check); an empty used
set skips cleanup with a warning; otherwise walk the cache deleting every
parsable provider file whose key is not in the used set.  `none` is the `cty`
panic propagating out of `collectUsedProviders`. -/
def cleanUnusedProviders (envResult : Except String (List String)) (fs : EnvFS)
    (reg : Registry) (cache : List CacheFile) : Option PassBResult :=
  match envResult with
  | .error e => some ⟨cache, [], .error ("failed to list environments: " ++ e)⟩
  | .ok envs =>
    if envs.length = 0 then some ⟨cache, [], .ok ()⟩
    else
      match collectUsedProviders envs fs reg with
      | none => none
      | some (usedProviders, err) =>
        match err with
        | some e => some ⟨cache, [], .error ("failed to collect used providers: " ++ e)⟩
        | none =>
          if usedProviders.length = 0 then some ⟨cache, [], .ok ()⟩
          else
            let r := passBAux usedProviders cache
            some ⟨r.1, r.2, .ok ()⟩

/-- One full reconciliation run as performed by the `cleanup` command: Pass A
(`cleanDuplicateProviders`) over the cache, then Pass B
(`cleanUnusedProviders`) over what remains.  Returns the final cache state
and every file deleted during the run; when Pass B aborts (enumeration error
or panic) the cache state is whatever Pass A left. -/
def cleanupRun (readDirResult : Except String (List DirEntry)) (fs : EnvFS)
    (reg : Registry) (cache : List CacheFile) : List CacheFile × List CacheFile :=
  let a := cleanDuplicateProviders cache
  match cleanUnusedProviders (getEnvironments readDirResult) fs reg a.1 with
  | none => (a.1, a.2)
  | some r => (r.kept, a.2 ++ r.deleted)

/-! ## Structural lemmas about the two cache passes -/

/-- Membership form of the Go map lookup `seen[key]` modelled by
`List.contains`. -/
theorem listContains_eq (l : List String) (a : String) :
    l.contains a = decide (a ∈ l) := by
  simp [List.contains]

theorem listContains_of_mem {l : List String} {a : String} (h : a ∈ l) :
    l.contains a = true := by
  simp [listContains_eq, h]

theorem listContains_of_not_mem {l : List String} {a : String} (h : a ∉ l) :
    l.contains a = false := by
  simp [listContains_eq, h]

theorem passAAux_nil (seen : List String) : passAAux seen [] = ([], []) := rfl

theorem passAAux_cons_skip {f : CacheFile} (seen : List String) (fs : List CacheFile)
    (hpk : parseAKey f.name = none) :
    passAAux seen (f :: fs) = (f :: (passAAux seen fs).1, (passAAux seen fs).2) := by
  simp only [passAAux, hpk]

theorem passAAux_cons_dup {f : CacheFile} {key : String} (seen : List String)
    (fs : List CacheFile) (hpk : parseAKey f.name = some key) (hs : key ∈ seen) :
    passAAux seen (f :: fs) = ((passAAux seen fs).1, f :: (passAAux seen fs).2) := by
  simp only [passAAux, hpk, listContains_of_mem hs, if_true]

theorem passAAux_cons_new {f : CacheFile} {key : String} (seen : List String)
    (fs : List CacheFile) (hpk : parseAKey f.name = some key) (hs : key ∉ seen) :
    passAAux seen (f :: fs) =
      (f :: (passAAux (key :: seen) fs).1, (passAAux (key :: seen) fs).2) := by
  simp only [passAAux, hpk, listContains_of_not_mem hs, if_false, Bool.false_eq_true]

theorem passBAux_nil (used : List String) : passBAux used [] = ([], []) := rfl

theorem passBAux_cons_skip {f : CacheFile} (used : List String) (fs : List CacheFile)
    (hpk : parseBKey f.name = none) :
    passBAux used (f :: fs) = (f :: (passBAux used fs).1, (passBAux used fs).2) := by
  simp only [passBAux, hpk]

theorem passBAux_cons_used {f : CacheFile} {key : String} (used : List String)
    (fs : List CacheFile) (hpk : parseBKey f.name = some key) (hs : key ∈ used) :
    passBAux used (f :: fs) = (f :: (passBAux used fs).1, (passBAux used fs).2) := by
  simp only [passBAux, hpk, listContains_of_mem hs, if_true]

theorem passBAux_cons_del {f : CacheFile} {key : String} (used : List String)
    (fs : List CacheFile) (hpk : parseBKey f.name = some key) (hs : key ∉ used) :
    passBAux used (f :: fs) = ((passBAux used fs).1, f :: (passBAux used fs).2) := by
  simp only [passBAux, hpk, listContains_of_not_mem hs, if_false, Bool.false_eq_true]

/-- The Pass-A duplicate keys contributed by a list of cache files. -/
def keysA (l : List CacheFile) : List String :=
  l.filterMap (fun f => parseAKey f.name)

/-- Whether a file parses to the given Pass-A key. -/
def hasAKey (k : String) (f : CacheFile) : Bool :=
  parseAKey f.name == some k

theorem hasAKey_eq_false_of_none {f : CacheFile} (k : String)
    (hpk : parseAKey f.name = none) : hasAKey k f = false := by
  simp [hasAKey, hpk]

theorem hasAKey_eq_false_of_ne {f : CacheFile} {key : String} (k : String)
    (hpk : parseAKey f.name = some key) (hne : key ≠ k) : hasAKey k f = false := by
  simp [hasAKey, hpk, hne]

theorem hasAKey_eq_true {f : CacheFile} {k : String}
    (hpk : parseAKey f.name = some k) : hasAKey k f = true := by
  simp [hasAKey, hpk]

/-- Restricted to the files carrying one fixed Pass-A key, the Pass-A walk
keeps exactly the first file and deletes the rest (or deletes all of them
when the key was already seen on entry). -/
theorem passAAux_filter (k : String) (l : List CacheFile) : ∀ (seen : List String),
    ((passAAux seen l).1.filter (hasAKey k) =
      if k ∈ seen then [] else (l.filter (hasAKey k)).take 1)
    ∧ ((passAAux seen l).2.filter (hasAKey k) =
      if k ∈ seen then l.filter (hasAKey k)
      else (l.filter (hasAKey k)).drop 1) := by
  induction l with
  | nil => intro seen; simp [passAAux_nil]
  | cons f fs ih =>
    intro seen
    cases hpk : parseAKey f.name with
    | none =>
      have hff : hasAKey k f = false := hasAKey_eq_false_of_none k hpk
      rw [passAAux_cons_skip seen fs hpk]
      simp only [List.filter_cons, hff, Bool.false_eq_true, if_false]
      exact ih seen
    | some key =>
      by_cases hkk : key = k
      · subst hkk
        have hft : hasAKey key f = true := hasAKey_eq_true hpk
        by_cases hs : key ∈ seen
        · rw [passAAux_cons_dup seen fs hpk hs]
          have hrec := ih seen
          rw [if_pos hs, if_pos hs] at hrec
          simp only [List.filter_cons, hft, if_true, if_pos hs]
          exact ⟨hrec.1, by rw [hrec.2]⟩
        · rw [passAAux_cons_new seen fs hpk hs]
          have hrec := ih (key :: seen)
          rw [if_pos (List.mem_cons_self key seen),
            if_pos (List.mem_cons_self key seen)] at hrec
          simp only [List.filter_cons, hft, if_true, if_neg hs]
          rw [hrec.1, hrec.2]
          simp
      · have hff : hasAKey k f = false := hasAKey_eq_false_of_ne k hpk hkk
        by_cases hs : key ∈ seen
        · rw [passAAux_cons_dup seen fs hpk hs]
          simp only [List.filter_cons, hff, Bool.false_eq_true, if_false]
          exact ih seen
        · rw [passAAux_cons_new seen fs hpk hs]
          simp only [List.filter_cons, hff, Bool.false_eq_true, if_false]
          have hrec := ih (key :: seen)
          have hmem : (k ∈ key :: seen) ↔ k ∈ seen := by
            simp only [List.mem_cons, or_iff_right_iff_imp]
            intro h
            exact absurd h.symm hkk
          by_cases hsk : k ∈ seen
          · rw [if_pos (hmem.mpr hsk), if_pos (hmem.mpr hsk)] at hrec
            rw [if_pos hsk, if_pos hsk]
            exact hrec
          · rw [if_neg (fun h => hsk (hmem.mp h)),
              if_neg (fun h => hsk (hmem.mp h))] at hrec
            rw [if_neg hsk, if_neg hsk]
            exact hrec

/-- Only files that parse to a Pass-A key are ever deleted by Pass A. -/
theorem passAAux_deleted_parses (l : List CacheFile) : ∀ (seen : List String)
    (f : CacheFile), f ∈ (passAAux seen l).2 → ∃ k, parseAKey f.name = some k := by
  induction l with
  | nil => intro seen f h; simp [passAAux_nil] at h
  | cons g gs ih =>
    intro seen f h
    cases hpg : parseAKey g.name with
    | none =>
      rw [passAAux_cons_skip seen gs hpg] at h
      exact ih seen f h
    | some key =>
      by_cases hs : key ∈ seen
      · rw [passAAux_cons_dup seen gs hpg hs] at h
        rcases List.mem_cons.mp h with h | h
        · exact ⟨key, h ▸ hpg⟩
        · exact ih seen f h
      · rw [passAAux_cons_new seen gs hpg hs] at h
        exact ih (key :: seen) f h

/-- Pass-A kept files have pairwise-distinct keys, none of them in `seen`. -/
theorem passAAux_kept_keys (l : List CacheFile) : ∀ (seen : List String),
    (keysA (passAAux seen l).1).Nodup
    ∧ ∀ x ∈ keysA (passAAux seen l).1, x ∉ seen := by
  induction l with
  | nil => intro seen; simp [passAAux_nil, keysA]
  | cons f fs ih =>
    intro seen
    cases hpk : parseAKey f.name with
    | none =>
      rw [passAAux_cons_skip seen fs hpk]
      have hkeys : keysA (f :: (passAAux seen fs).1) = keysA (passAAux seen fs).1 := by
        simp [keysA, List.filterMap_cons, hpk]
      rw [hkeys]
      exact ih seen
    | some key =>
      by_cases hs : key ∈ seen
      · rw [passAAux_cons_dup seen fs hpk hs]
        exact ih seen
      · rw [passAAux_cons_new seen fs hpk hs]
        have hkeys : keysA (f :: (passAAux (key :: seen) fs).1) =
            key :: keysA (passAAux (key :: seen) fs).1 := by
          simp [keysA, List.filterMap_cons, hpk]
        have hrec := ih (key :: seen)
        rw [hkeys]
        constructor
        · refine List.nodup_cons.mpr ⟨?_, hrec.1⟩
          intro hmem
          exact hrec.2 key hmem (List.mem_cons_self key seen)
        · intro x hx
          rcases List.mem_cons.mp hx with h | h
          · exact h ▸ hs
          · intro hxs
            exact hrec.2 x h (List.mem_cons_of_mem key hxs)

/-- Pass A deletes nothing from a list whose keys are pairwise distinct and
disjoint from `seen`. -/
theorem passAAux_id (l : List CacheFile) : ∀ (seen : List String),
    (keysA l).Nodup → (∀ x ∈ keysA l, x ∉ seen) →
    passAAux seen l = (l, []) := by
  induction l with
  | nil => intro seen _ _; simp [passAAux_nil]
  | cons f fs ih =>
    intro seen hnd hdisj
    cases hpk : parseAKey f.name with
    | none =>
      have hkeys : keysA (f :: fs) = keysA fs := by
        simp [keysA, List.filterMap_cons, hpk]
      rw [hkeys] at hnd hdisj
      rw [passAAux_cons_skip seen fs hpk, ih seen hnd hdisj]
    | some key =>
      have hkeys : keysA (f :: fs) = key :: keysA fs := by
        simp [keysA, List.filterMap_cons, hpk]
      rw [hkeys] at hnd hdisj
      have hs : key ∉ seen := hdisj key (List.mem_cons_self key (keysA fs))
      have hnd' := List.nodup_cons.mp hnd
      have h2 : ∀ x ∈ keysA fs, x ∉ key :: seen := by
        intro x hx hmem
        rcases List.mem_cons.mp hmem with h | h
        · exact hnd'.1 (h ▸ hx)
        · exact hdisj x (List.mem_cons_of_mem key hx) h
      rw [passAAux_cons_new seen fs hpk hs, ih (key :: seen) hnd'.2 h2]

/-- The files kept by Pass B form a sublist of the walked list. -/
theorem passBAux_kept_sublist (used : List String) (l : List CacheFile) :
    (passBAux used l).1.Sublist l := by
  induction l with
  | nil => simp [passBAux_nil]
  | cons f fs ih =>
    cases hpf : parseBKey f.name with
    | none =>
      rw [passBAux_cons_skip used fs hpf]
      exact ih.cons₂ f
    | some key =>
      by_cases hs : key ∈ used
      · rw [passBAux_cons_used used fs hpf hs]
        exact ih.cons₂ f
      · rw [passBAux_cons_del used fs hpf hs]
        exact ih.cons f

/-- A file whose Pass-B key is in the used set is never deleted by Pass B. -/
theorem passBAux_safe (used : List String) (l : List CacheFile) :
    ∀ (f : CacheFile) (k : String), parseBKey f.name = some k →
      k ∈ used → f ∉ (passBAux used l).2 := by
  induction l with
  | nil => intro f k _ _ h; simp [passBAux_nil] at h
  | cons g gs ih =>
    intro f k hpf hused h
    cases hpg : parseBKey g.name with
    | none =>
      rw [passBAux_cons_skip used gs hpg] at h
      exact ih f k hpf hused h
    | some key =>
      by_cases hs : key ∈ used
      · rw [passBAux_cons_used used gs hpg hs] at h
        exact ih f k hpf hused h
      · rw [passBAux_cons_del used gs hpg hs] at h
        rcases List.mem_cons.mp h with h | h
        · subst h
          rw [hpf] at hpg
          cases hpg
          exact hs hused
        · exact ih f k hpf hused h

/-- Every file kept by Pass B either does not parse or has a used key. -/
theorem passBAux_kept_safe (used : List String) (l : List CacheFile) :
    ∀ f ∈ (passBAux used l).1, ∀ k, parseBKey f.name = some k → k ∈ used := by
  induction l with
  | nil => intro f h; simp [passBAux_nil] at h
  | cons g gs ih =>
    intro f hf k hpf
    cases hpg : parseBKey g.name with
    | none =>
      rw [passBAux_cons_skip used gs hpg] at hf
      rcases List.mem_cons.mp hf with h | h
      · subst h; rw [hpf] at hpg; cases hpg
      · exact ih f h k hpf
    | some key =>
      by_cases hs : key ∈ used
      · rw [passBAux_cons_used used gs hpg hs] at hf
        rcases List.mem_cons.mp hf with h | h
        · subst h; rw [hpf] at hpg; cases hpg; exact hs
        · exact ih f h k hpf
      · rw [passBAux_cons_del used gs hpg hs] at hf
        exact ih f hf k hpf

/-- Pass B deletes nothing from a list all of whose parsable files have used
keys. -/
theorem passBAux_id (used : List String) (l : List CacheFile) :
    (∀ f ∈ l, ∀ k, parseBKey f.name = some k → k ∈ used) →
    passBAux used l = (l, []) := by
  induction l with
  | nil => intro _; simp [passBAux_nil]
  | cons g gs ih =>
    intro h
    have hrec := ih (fun f hf k hk => h f (List.mem_cons_of_mem g hf) k hk)
    cases hpg : parseBKey g.name with
    | none => rw [passBAux_cons_skip used gs hpg, hrec]
    | some key =>
      have hkey := h g (List.mem_cons_self g gs) key hpg
      rw [passBAux_cons_used used gs hpg hkey, hrec]

/-! ## Characterisation of `cleanUnusedProviders` -/

/-- The Go source of `collectUsedProviders` returns through the single
statement `return usedProviders, nil`: whenever it returns at all, its error
component is `none`. -/
theorem collectUsedProviders_err_none (envs : List String) (fs : EnvFS)
    (reg : Registry) (r : List String × Option String)
    (h : collectUsedProviders envs fs reg = some r) : r.2 = none := by
  unfold collectUsedProviders at h
  cases hp : procEnvs reg fs envs [] with
  | none => rw [hp] at h; cases h
  | some used => rw [hp] at h; cases h; rfl

/-- The decision `cleanUnusedProviders` reaches before walking the cache:
`none` = the run dies in used-set collection (`cty` panic); `some none` = the
walk is skipped (enumeration failure, no environments, or empty used set);
`some (some used)` = the deletion walk runs against `used`. -/
def passBDecision (envResult : Except String (List String)) (fs : EnvFS)
    (reg : Registry) : Option (Option (List String)) :=
  match envResult with
  | .error _ => some none
  | .ok envs =>
    if envs.length = 0 then some none
    else
      match collectUsedProviders envs fs reg with
      | none => none
      | some (used, err) =>
        match err with
        | some _ => some none
        | none => if used.length = 0 then some none else some (some used)

/-- The error value `cleanUnusedProviders` reports when it skips the walk. -/
def passBSkipMsg (envResult : Except String (List String)) : Except String Unit :=
  match envResult with
  | .error e => .error ("failed to list environments: " ++ e)
  | .ok _ => .ok ()

/-- Unfolding of `cleanUnusedProviders` through `passBDecision`: the walk and
the skip cases, with the skip result independent of the cache. -/
theorem cleanUnusedProviders_eq (envResult : Except String (List String))
    (fs : EnvFS) (reg : Registry) (cache : List CacheFile) :
    cleanUnusedProviders envResult fs reg cache =
      match passBDecision envResult fs reg with
      | none => none
      | some none => some ⟨cache, [], passBSkipMsg envResult⟩
      | some (some used) =>
        some ⟨(passBAux used cache).1, (passBAux used cache).2, .ok ()⟩ := by
  cases envResult with
  | error e => rfl
  | ok envs =>
    by_cases hlen : envs.length = 0
    · simp only [cleanUnusedProviders, passBDecision, passBSkipMsg, hlen, if_true]
    · simp only [cleanUnusedProviders, passBDecision, passBSkipMsg, hlen, if_false]
      cases hc : collectUsedProviders envs fs reg with
      | none => rfl
      | some r =>
        have herr : r.2 = none := collectUsedProviders_err_none envs fs reg r hc
        cases r with
        | mk used err =>
          cases herr
          by_cases hu : used.length = 0
          · simp only [hu, if_true]
          · simp only [hu, if_false]

/-- Unfolding of a whole `cleanup` run through `passBDecision`. -/
theorem cleanupRun_eq (rd : Except String (List DirEntry)) (fs : EnvFS)
    (reg : Registry) (cache : List CacheFile) :
    cleanupRun rd fs reg cache =
      match passBDecision (getEnvironments rd) fs reg with
      | none => ((cleanDuplicateProviders cache).1, (cleanDuplicateProviders cache).2)
      | some none =>
        ((cleanDuplicateProviders cache).1, (cleanDuplicateProviders cache).2 ++ [])
      | some (some used) =>
        ((passBAux used (cleanDuplicateProviders cache).1).1,
          (cleanDuplicateProviders cache).2 ++ (passBAux used (cleanDuplicateProviders cache).1).2) := by
  simp only [cleanupRun]
  rw [cleanUnusedProviders_eq]
  cases passBDecision (getEnvironments rd) fs reg with
  | none => rfl
  | some d => cases d with
    | none => rfl
    | some used => rfl

/-! ## Order-theoretic lemmas about the go-version comparison -/

theorem segCompareNil_nil : segCompareNil [] = 0 := rfl

theorem segCompare_self (a : List Nat) : segCompare a a = 0 := by
  induction a with
  | nil => rfl
  | cons x xs ih => simp [segCompare, ih]

theorem segCompare_nil_right (a : List Nat) : segCompare a [] = -segCompareNil a := by
  induction a with
  | nil => rfl
  | cons x xs ih =>
    by_cases hx : x > 0
    · simp [segCompare, segCompareNil, hx]
    · simp [segCompare, segCompareNil, hx, ih]

theorem segCompare_swap (a : List Nat) : ∀ (b : List Nat),
    segCompare b a = -segCompare a b := by
  induction a with
  | nil =>
    intro b
    rw [segCompare_nil_right b]
    rfl
  | cons x xs ih =>
    intro b
    cases b with
    | nil =>
      show segCompareNil (x :: xs) = -segCompare (x :: xs) []
      by_cases hx : x > 0
      · simp [segCompareNil, segCompare, hx]
      · have := segCompare_nil_right xs
        simp [segCompareNil, segCompare, hx, this]
    | cons y ys =>
      show segCompare (y :: ys) (x :: xs) = -segCompare (x :: xs) (y :: ys)
      rcases Nat.lt_trichotomy x y with h | h | h
      · simp [segCompare, h, Nat.lt_asymm h, Nat.ne_of_gt h]
      · subst h
        simp [segCompare, Nat.lt_irrefl, ih ys]
      · simp [segCompare, h, Nat.lt_asymm h, Nat.ne_of_gt h]

/-- Uniform head-step unfolding of `segCompare`, treating a missing head as
zero. -/
theorem segCompare_head (a b : List Nat) :
    segCompare a b =
      if a.headD 0 < b.headD 0 then -1
      else if b.headD 0 < a.headD 0 then 1
      else segCompare a.tail b.tail := by
  cases a with
  | nil =>
    cases b with
    | nil => rfl
    | cons y ys =>
      show segCompareNil (y :: ys) = _
      by_cases hy : 0 < y
      · simp [segCompareNil, hy]
      · have hy0 : y = 0 := Nat.eq_zero_of_not_pos hy
        subst hy0
        simp [segCompareNil]
        rfl
  | cons x xs =>
    cases b with
    | nil =>
      show (if x > 0 then 1 else segCompare xs []) = _
      by_cases hx : 0 < x
      · simp [hx, Nat.not_lt_of_gt hx]
      · have hx0 : x = 0 := Nat.eq_zero_of_not_pos hx
        subst hx0
        simp
    | cons y ys =>
      rfl

theorem segCompareNil_range (b : List Nat) :
    segCompareNil b = -1 ∨ segCompareNil b = 0 := by
  induction b with
  | nil => right; rfl
  | cons y ys ih =>
    by_cases hy : y > 0
    · left; simp [segCompareNil, hy]
    · rw [show segCompareNil (y :: ys) = segCompareNil ys by simp [segCompareNil, hy]]
      exact ih

theorem segCompare_range (a : List Nat) : ∀ (b : List Nat),
    segCompare a b = -1 ∨ segCompare a b = 0 ∨ segCompare a b = 1 := by
  induction a with
  | nil =>
    intro b
    show segCompareNil b = -1 ∨ segCompareNil b = 0 ∨ segCompareNil b = 1
    rcases segCompareNil_range b with h | h
    · left; exact h
    · right; left; exact h
  | cons x xs ih =>
    intro b
    cases b with
    | nil =>
      by_cases hx : x > 0
      · right; right; simp [segCompare, hx]
      · simpa [segCompare, hx] using ih []
    | cons y ys =>
      rcases Nat.lt_trichotomy x y with h | h | h
      · left; simp [segCompare, h]
      · subst h
        simpa [segCompare, Nat.lt_irrefl] using ih ys
      · right; right; simp [segCompare, h, Nat.lt_asymm h]

/-- Transitivity of the non-strict descending comparison, proved by strong
induction on the total length. -/
theorem segCompare_trans_aux (n : Nat) : ∀ (a b c : List Nat),
    a.length + b.length + c.length ≤ n →
    segCompare a b ≥ 0 → segCompare b c ≥ 0 → segCompare a c ≥ 0 := by
  induction n with
  | zero =>
    intro a b c hlen h1 h2
    have ha : a = [] := List.eq_nil_of_length_eq_zero (by omega)
    have hc : c = [] := List.eq_nil_of_length_eq_zero (by omega)
    subst ha; subst hc
    simp [segCompare_self]
  | succ n ih =>
    intro a b c hlen h1 h2
    by_cases hab : a = [] ∧ b = []
    · rcases hab with ⟨ha, hb⟩
      subst ha; subst hb
      exact h2
    · by_cases hbc : b = [] ∧ c = []
      · rcases hbc with ⟨hb, hc⟩
        subst hb; subst hc
        exact h1
      · rw [segCompare_head] at h1 h2
        rw [segCompare_head]
        by_cases hxy : a.headD 0 < b.headD 0
        · rw [if_pos hxy] at h1
          omega
        · by_cases hyz : b.headD 0 < c.headD 0
          · rw [if_pos hyz] at h2
            omega
          · by_cases hxz : a.headD 0 < c.headD 0
            · exact absurd hxz (by omega)
            · rw [if_neg hxz]
              by_cases hzx : c.headD 0 < a.headD 0
              · rw [if_pos hzx]
                omega
              · rw [if_neg hzx]
                have hxy2 : ¬ b.headD 0 < a.headD 0 := by omega
                have hyz2 : ¬ c.headD 0 < b.headD 0 := by omega
                rw [if_neg hxy, if_neg hxy2] at h1
                rw [if_neg hyz, if_neg hyz2] at h2
                have hlen2 : a.tail.length + b.tail.length + c.tail.length ≤ n := by
                  have h3 : a ≠ [] ∨ b ≠ [] := by tauto
                  rcases h3 with h3 | h3
                  · have := List.length_pos.mpr h3
                    have ha := List.length_tail a
                    have hb := List.length_tail b
                    have hc := List.length_tail c
                    omega
                  · have := List.length_pos.mpr h3
                    have ha := List.length_tail a
                    have hb := List.length_tail b
                    have hc := List.length_tail c
                    omega
                exact ih a.tail b.tail c.tail hlen2 h1 h2

theorem segCompare_trans {a b c : List Nat} (h1 : segCompare a b ≥ 0)
    (h2 : segCompare b c ≥ 0) : segCompare a c ≥ 0 :=
  segCompare_trans_aux (a.length + b.length + c.length) a b c (Nat.le_refl _) h1 h2

theorem versionCompare_self (v : GoVersion) : versionCompare v v = 0 := by
  unfold versionCompare
  by_cases hp : v.pre = ""
  · simp [hp]
  · simp [hp, comparePrereleases]

/-- On prerelease-free versions the go-version comparison is exactly the
zero-filled segment comparison. -/
theorem versionCompare_eq_seg {v w : GoVersion} (hv : v.pre = "") (hw : w.pre = "") :
    versionCompare v w = segCompare v.segments w.segments := by
  unfold versionCompare
  by_cases hseg : v.segments = w.segments
  · simp [hseg, hv, hw, segCompare_self]
  · simp [hseg]

theorem mem_insertDesc (v x : GoVersion) (l : List GoVersion) :
    x ∈ insertDesc v l ↔ x = v ∨ x ∈ l := by
  induction l with
  | nil => simp [insertDesc]
  | cons w ws ih =>
    by_cases h : versionCompare v w ≥ 0
    · simp [insertDesc, h]
    · simp [insertDesc, h, ih]
      tauto

theorem mem_sortVersionsDesc (x : GoVersion) (l : List GoVersion) :
    x ∈ sortVersionsDesc l ↔ x ∈ l := by
  induction l with
  | nil => simp [sortVersionsDesc]
  | cons v vs ih =>
    simp [sortVersionsDesc, mem_insertDesc, ih]

/-- Inserting into a descending-sorted list of prerelease-free versions keeps
it descending-sorted. -/
theorem insertDesc_pairwise {l : List GoVersion} {v : GoVersion}
    (hv : v.pre = "") (hl : ∀ w ∈ l, w.pre = "")
    (hp : l.Pairwise (fun a b => versionCompare a b ≥ 0)) :
    (insertDesc v l).Pairwise (fun a b => versionCompare a b ≥ 0) := by
  induction l with
  | nil => simp [insertDesc]
  | cons w ws ih =>
    have hw : w.pre = "" := hl w (List.mem_cons_self w ws)
    have hws : ∀ u ∈ ws, u.pre = "" := fun u hu => hl u (List.mem_cons_of_mem w hu)
    rcases List.pairwise_cons.mp hp with ⟨hwall, hpws⟩
    by_cases h : versionCompare v w ≥ 0
    · rw [insertDesc, if_pos h]
      refine List.pairwise_cons.mpr ⟨?_, hp⟩
      intro u hu
      rcases List.mem_cons.mp hu with hu | hu
      · exact hu ▸ h
      · have huf : u.pre = "" := hws u hu
        have hwu : versionCompare w u ≥ 0 := hwall u hu
        rw [versionCompare_eq_seg hv hw] at h
        rw [versionCompare_eq_seg hw huf] at hwu
        rw [versionCompare_eq_seg hv huf]
        exact segCompare_trans h hwu
    · rw [insertDesc, if_neg h]
      refine List.pairwise_cons.mpr ⟨?_, ih hws hpws⟩
      intro u hu
      rcases (mem_insertDesc v u ws).mp hu with hu | hu
      · rw [hu]
        rw [versionCompare_eq_seg hv hw] at h
        rw [versionCompare_eq_seg hw hv]
        rw [segCompare_swap]
        rcases segCompare_range (GoVersion.segments v) (GoVersion.segments w) with hr | hr | hr <;>
          omega
      · exact hwall u hu

/-- The descending sort of a prerelease-free version list is
descending-sorted. -/
theorem sortVersionsDesc_pairwise {l : List GoVersion} (hl : ∀ w ∈ l, w.pre = "") :
    (sortVersionsDesc l).Pairwise (fun a b => versionCompare a b ≥ 0) := by
  induction l with
  | nil => simp [sortVersionsDesc]
  | cons v vs ih =>
    have hv : v.pre = "" := hl v (List.mem_cons_self v vs)
    have hvs : ∀ u ∈ vs, u.pre = "" := fun u hu => hl u (List.mem_cons_of_mem v hu)
    have hsorted : ∀ u ∈ sortVersionsDesc vs, u.pre = "" := by
      intro u hu
      exact hvs u ((mem_sortVersionsDesc u vs).mp hu)
    exact insertDesc_pairwise hv hsorted (ih hvs)

/-- In a list sorted by a reflexive relation, the first element satisfying a
predicate dominates every element satisfying the predicate. -/
theorem find?_pairwise_max {α : Type} {R : α → α → Prop} (hrefl : ∀ x, R x x)
    (p : α → Bool) (l : List α) : ∀ (v : α), l.Pairwise R →
    l.find? p = some v → ∀ w ∈ l, p w = true → R v w := by
  induction l with
  | nil => intro v _ hf; cases hf
  | cons h t ih =>
    intro v hp hf w hw hpw
    rcases List.pairwise_cons.mp hp with ⟨hall, hpt⟩
    by_cases hph : p h = true
    · rw [List.find?_cons_of_pos _ hph] at hf
      have hhv : h = v := Option.some.inj hf
      rcases List.mem_cons.mp hw with hw | hw
      · rw [hw, ← hhv]
        exact hrefl h
      · rw [← hhv]
        exact hall w hw
    · rw [List.find?_cons_of_neg _ (by simpa using hph)] at hf
      rcases List.mem_cons.mp hw with hw | hw
      · subst hw
        exact absurd hpw hph
      · exact ih v hpt hf w hw hpw

/-! ## Partial-failure tolerance of used-set collection -/

/-- A configuration file with parse diagnostics contributes nothing and is
skipped. -/
theorem procTfFile_parse_err (reg : Registry) (p m : String) (acc : List String) :
    procTfFile reg ⟨p, .error m⟩ acc = some acc := rfl

/-- Processing a concatenation of file lists is processing them in
sequence. -/
theorem procTfFiles_append (reg : Registry) (xs ys : List TfFile) : ∀ (acc : List String),
    procTfFiles reg (xs ++ ys) acc =
      match procTfFiles reg xs acc with
      | none => none
      | some a => procTfFiles reg ys a := by
  induction xs with
  | nil => intro acc; rfl
  | cons f fs ih =>
    intro acc
    show procTfFiles reg (f :: (fs ++ ys)) acc = _
    simp only [procTfFiles]
    cases procTfFile reg f acc with
    | none => rfl
    | some a => exact ih a

/-- An environment whose glob result is unchanged is processed identically. -/
theorem procEnv_congr (reg : Registry) {fs fs' : EnvFS} (e : String)
    (h : envGlob fs e = envGlob fs' e) (acc : List String) :
    procEnv reg fs e acc = procEnv reg fs' e acc := by
  unfold procEnv
  rw [h]

/-- Dropping one unparsable file from an environment's glob result does not
change the processing of that environment. -/
theorem procEnv_drop_err (reg : Registry) {fs fs' : EnvFS} (e badPath msg : String)
    (pre post : List TfFile)
    (h1 : envGlob fs e = .ok (pre ++ ⟨badPath, .error msg⟩ :: post))
    (h2 : envGlob fs' e = .ok (pre ++ post)) (acc : List String) :
    procEnv reg fs e acc = procEnv reg fs' e acc := by
  unfold procEnv
  rw [h1, h2]
  show (if (pre ++ ⟨badPath, .error msg⟩ :: post : List TfFile).length = 0 then some acc
      else procTfFiles reg (pre ++ ⟨badPath, .error msg⟩ :: post) acc)
    = if (pre ++ post : List TfFile).length = 0 then some acc
      else procTfFiles reg (pre ++ post) acc
  rw [if_neg (by simp)]
  by_cases hpp : (pre ++ post : List TfFile).length = 0
  · have hpre : pre = [] := by
      rcases List.append_eq_nil.mp (List.length_eq_zero.mp hpp) with ⟨hp, _⟩
      exact hp
    have hpost : post = [] := by
      rcases List.append_eq_nil.mp (List.length_eq_zero.mp hpp) with ⟨_, hp⟩
      exact hp
    subst hpre; subst hpost
    rw [if_pos hpp]
    rfl
  · rw [if_neg hpp]
    rw [procTfFiles_append, procTfFiles_append]
    cases procTfFiles reg pre acc with
    | none => rfl
    | some a =>
      show procTfFiles reg (⟨badPath, .error msg⟩ :: post) a = _
      simp only [procTfFiles, procTfFile_parse_err]

/-- Folding environments is unchanged when one environment drops an
unparsable file and every other environment's glob result is unchanged. -/
theorem procEnvs_drop_err (reg : Registry) {fs fs' : EnvFS} (e badPath msg : String)
    (pre post : List TfFile)
    (h1 : envGlob fs e = .ok (pre ++ ⟨badPath, .error msg⟩ :: post))
    (h2 : envGlob fs' e = .ok (pre ++ post))
    (hother : ∀ e', e' ≠ e → envGlob fs e' = envGlob fs' e') :
    ∀ (envs : List String) (acc : List String),
      procEnvs reg fs envs acc = procEnvs reg fs' envs acc := by
  intro envs
  induction envs with
  | nil => intro acc; rfl
  | cons x xs ih =>
    intro acc
    have hx : procEnv reg fs x acc = procEnv reg fs' x acc := by
      by_cases hxe : x = e
      · subst hxe
        exact procEnv_drop_err reg x badPath msg pre post h1 h2 acc
      · exact procEnv_congr reg x (hother x hxe) acc
    simp only [procEnvs, hx]
    cases procEnv reg fs' x acc with
    | none => rfl
    | some acc2 => exact ih acc2

/-! ## Concrete data used in witnesses and counterexamples -/

/-- Registry responses for the `hashicorp/aws` provider used in concrete
runs. -/
def exRegistry : Registry := [("aws", .ok ["3.70.0", "3.74.0"])]

/-- Registry used by the spec's constraint-resolution scenario. -/
def c4Registry : Registry := [("aws", .ok ["3.9.0", "4.2.0", "4.5.1", "5.0.0"])]

/-- A `required_providers` body in the flat shape the extractor actually
handles: attributes named `source` and `version` directly on the block. -/
def flatRpBody : HclBody :=
  .mk [("source", .ok (.str "hashicorp/aws")), ("version", .ok (.str "~> 3.74"))] []

/-- A configuration file body declaring `hashicorp/aws ~> 3.74` in the flat
shape. -/
def flatTfBody : HclBody :=
  .mk [] [("terraform", .mk [] [("required_providers", flatRpBody)])]

/-- The well-known nested `required_providers` shape shown in the code's own
comment: the provider label carries an object with `source` and `version`. -/
def nestedRpBody : HclBody :=
  .mk [("aws", .ok (.obj [("source", "hashicorp/aws"), ("version", "~> 3.74")]))] []

/-- A configuration file body with the nested (well-known) shape. -/
def nestedTfBody : HclBody :=
  .mk [] [("terraform", .mk [] [("required_providers", nestedRpBody)])]

/-- One environment `dev` whose single configuration file uses the flat
shape. -/
def exEnvFS : EnvFS := [("dev", .ok [⟨"/envs/dev/config/dev/main.tf", .ok flatTfBody⟩])]

/-- One environment `dev` whose single configuration file uses the nested
(well-known) shape. -/
def nestedEnvFS : EnvFS :=
  [("dev", .ok [⟨"/envs/dev/config/dev/main.tf", .ok nestedTfBody⟩])]

/-- Enumeration result with the single environment `dev`. -/
def exReadDir : Except String (List DirEntry) := .ok [⟨"dev", true⟩]

/-- Base name of a cached aws 3.74.0 artifact. -/
def awsZipName : String := "terraform-provider-aws_v3.74.0_linux_amd64.zip"

/-- First cached copy of aws 3.74.0. -/
def cacheA : CacheFile :=
  ⟨"/cache/a/terraform-provider-aws_v3.74.0_linux_amd64.zip", awsZipName⟩

/-- Second cached copy of aws 3.74.0 (same base name, different
directory). -/
def cacheB : CacheFile :=
  ⟨"/cache/b/terraform-provider-aws_v3.74.0_linux_amd64.zip", awsZipName⟩

/-- A cached aws 3.70.0 artifact, referenced by no environment. -/
def cacheOld : CacheFile :=
  ⟨"/cache/a/terraform-provider-aws_v3.70.0_linux_amd64.zip",
    "terraform-provider-aws_v3.70.0_linux_amd64.zip"⟩

/-- A provider filename containing the `_v` marker twice. -/
def doubleVName : String := "terraform-provider-edge_v1.0_v2_linux_amd64.zip"

/-- First cached copy of the double-marker artifact. -/
def dupv1 : CacheFile :=
  ⟨"/cache/a/terraform-provider-edge_v1.0_v2_linux_amd64.zip", doubleVName⟩

/-- Second cached copy of the double-marker artifact. -/
def dupv2 : CacheFile :=
  ⟨"/cache/b/terraform-provider-edge_v1.0_v2_linux_amd64.zip", doubleVName⟩

/-- Environment data where `dev` holds a malformed file and `prod` a valid
flat declaration. -/
def badFileEnvFS : EnvFS :=
  [("dev", .ok [⟨"/envs/dev/config/dev/broken.tf", .error "parse failure"⟩]),
    ("prod", .ok [⟨"/envs/prod/config/prod/main.tf", .ok flatTfBody⟩])]

/-- The same environment data with the malformed file removed. -/
def goodFileEnvFS : EnvFS :=
  [("dev", .ok []),
    ("prod", .ok [⟨"/envs/prod/config/prod/main.tf", .ok flatTfBody⟩])]

/-! ## Claim theorems -/

/-- C1 (counterexample): the claim that an artifact whose `name_version` key
is in the UsedSet is never deleted by either pass, regardless of duplicate
count, is false.  In this run the UsedSet is exactly `aws_3.74.0`; the cache
holds two copies of that artifact, and the run deletes the second copy (Pass
A removes duplicates without consulting the UsedSet). -/
theorem usedset_dup_deleted_counterexample :
    collectUsedProviders ["dev"] exEnvFS exRegistry = some (["aws_3.74.0"], none)
    ∧ parseBKey cacheB.name = some "aws_3.74.0"
    ∧ cacheB ∈ (cleanupRun exReadDir exEnvFS exRegistry [cacheA, cacheB]).2 :=
  ⟨by decide, by decide, by decide⟩

/-- C1 (amended): an artifact whose `name_version` key is present in the
UsedSet is never deleted by Pass B, the unused-removal walk; Pass A, which
ignores the UsedSet, removes every copy after the first of identically-keyed
artifacts, even used ones. -/
theorem usedset_artifact_never_deleted_by_passB (used : List String)
    (cache : List CacheFile) (f : CacheFile) (k : String)
    (hk : parseBKey f.name = some k) (hmem : k ∈ used) :
    f ∉ (passBAux used cache).2 :=
  passBAux_safe used cache f k hk hmem

/-- C1 (witness): the kept aws 3.74.0 copy is protected by Pass B. -/
theorem usedset_artifact_never_deleted_by_passB_witness :
    parseBKey cacheA.name = some "aws_3.74.0"
    ∧ "aws_3.74.0" ∈ ["aws_3.74.0"]
    ∧ cacheA ∉ (passBAux ["aws_3.74.0"] [cacheA, cacheB, cacheOld]).2 :=
  ⟨by decide, by decide,
    usedset_artifact_never_deleted_by_passB ["aws_3.74.0"] [cacheA, cacheB, cacheOld]
      cacheA "aws_3.74.0" (by decide) (by decide)⟩

/-- C2: when the environment list is empty or the aggregated used set is
empty, `cleanUnusedProviders` skips deletion entirely (with a warning) and
deletes zero files. -/
theorem passB_empty_usedset_skips (envResult : Except String (List String))
    (fs : EnvFS) (reg : Registry) (cache : List CacheFile) (envs : List String)
    (h1 : envResult = .ok envs)
    (h2 : envs = [] ∨ collectUsedProviders envs fs reg = some ([], none)) :
    cleanUnusedProviders envResult fs reg cache = some ⟨cache, [], .ok ()⟩ := by
  subst h1
  cases envs with
  | nil => rfl
  | cons e es =>
    rcases h2 with h2 | h2
    · exact absurd h2 (List.cons_ne_nil e es)
    · simp [cleanUnusedProviders, h2]

/-- C2 (witness): an environment whose only file fails to parse yields an
empty used set, and the walk deletes nothing. -/
theorem passB_empty_usedset_skips_witness :
    cleanUnusedProviders (.ok ["dev"])
        [("dev", .ok [⟨"/envs/dev/config/dev/broken.tf", .error "parse failure"⟩])]
        [] [cacheA, cacheOld] =
      some ⟨[cacheA, cacheOld], [], .ok ()⟩ :=
  passB_empty_usedset_skips (.ok ["dev"])
    [("dev", .ok [⟨"/envs/dev/config/dev/broken.tf", .error "parse failure"⟩])]
    [] [cacheA, cacheOld] ["dev"] rfl (Or.inr (by decide))

/-- C3: among the cache files sharing one Pass-A `name_version` key (two or
more of them), Pass A keeps exactly the first file in traversal order and
deletes every subsequent one. -/
theorem passA_dedup_first_wins (cache : List CacheFile) (k : String)
    (_hdup : 2 ≤ (cache.filter (hasAKey k)).length) :
    (cleanDuplicateProviders cache).1.filter (hasAKey k) =
        (cache.filter (hasAKey k)).take 1
    ∧ (cleanDuplicateProviders cache).2.filter (hasAKey k) =
        (cache.filter (hasAKey k)).drop 1 := by
  have h := passAAux_filter k cache []
  rw [if_neg (List.not_mem_nil k), if_neg (List.not_mem_nil k)] at h
  exact h

/-- C3 (witness): of two identically-keyed aws 3.74.0 copies, the first
survives Pass A and the second is deleted. -/
theorem passA_dedup_first_wins_witness :
    2 ≤ ([cacheA, cacheB, cacheOld].filter (hasAKey "aws_3.74.0_linux_amd64")).length
    ∧ ((cleanDuplicateProviders [cacheA, cacheB, cacheOld]).1.filter
          (hasAKey "aws_3.74.0_linux_amd64") =
        ([cacheA, cacheB, cacheOld].filter (hasAKey "aws_3.74.0_linux_amd64")).take 1
      ∧ (cleanDuplicateProviders [cacheA, cacheB, cacheOld]).2.filter
          (hasAKey "aws_3.74.0_linux_amd64") =
        ([cacheA, cacheB, cacheOld].filter (hasAKey "aws_3.74.0_linux_amd64")).drop 1) :=
  ⟨by decide, passA_dedup_first_wins [cacheA, cacheB, cacheOld]
    "aws_3.74.0_linux_amd64" (by decide)⟩

/-- C5: the code is wrong on the well-known nested `required_providers`
shape its own comment documents.  The resolver would resolve
`hashicorp/aws ~> 3.74` to `3.74.0`, but `Content` with the
`source`/`version` schema rejects the provider-label attribute `aws`
("unsupported argument"), the whole block is skipped, and the config
extractor contributes nothing to the used set. -/
theorem nested_required_providers_extracts_nothing :
    resolveProviderVersion exRegistry "hashicorp/aws" "~> 3.74" = .ok "3.74.0"
    ∧ contentSourceVersion nestedRpBody = .error "unsupported argument"
    ∧ collectUsedProviders ["dev"] nestedEnvFS exRegistry = some ([], none) :=
  ⟨by decide, by decide, by decide⟩

/-- C7: when enumeration of the base directory's `config` subpath fails,
`cleanUnusedProviders` returns the wrapped error before walking the cache:
no file is deleted. -/
theorem enumeration_error_aborts_passB (e : String) (fs : EnvFS) (reg : Registry)
    (cache : List CacheFile) :
    cleanUnusedProviders (getEnvironments (.error e)) fs reg cache =
      some ⟨cache, [],
        .error ("failed to list environments: " ++
          ("failed to read config directory: " ++ e))⟩ := rfl

/-- C9 (counterexample): the claim that a filename is split at the first
`_v` occurrence is false: `strings.Split` yields three parts for a name with
two `_v` markers, the length check fails, the file is not parsed at all, and
two identical copies both survive Pass A. -/
theorem multiple_v_marker_not_split :
    (goSplit doubleVName "_v").length = 3
    ∧ parseAKey doubleVName = none
    ∧ cleanDuplicateProviders [dupv1, dupv2] = ([dupv1, dupv2], []) :=
  ⟨by decide, by decide, by decide⟩

/-- C9 (amended): Pass A splits the filename on `_v` and only accepts an
exact two-part split; a prefixed filename with exactly one `_v` is split
there and keyed, while one with more than one `_v` occurrence is skipped:
never parsed and never deleted by Pass A. -/
theorem passA_split_exactly_one_marker (name : String)
    (hpfx : goStartsWith name "terraform-provider-" = true) :
    (∀ a b, goSplit name "_v" = [a, b] →
      parseAKey name = some (trimPfx a "terraform-provider-" ++ "_" ++ trimSfx b ".zip"))
    ∧ ((goSplit name "_v").length ≠ 2 →
      parseAKey name = none
      ∧ ∀ (cache : List CacheFile) (f : CacheFile), f.name = name →
          f ∉ (cleanDuplicateProviders cache).2) := by
  constructor
  · intro a b h
    simp [parseAKey, hpfx, h]
  · intro hlen
    have hnone : parseAKey name = none := by
      simp [parseAKey, hpfx, hlen]
    refine ⟨hnone, ?_⟩
    intro cache f hf hdel
    rcases passAAux_deleted_parses cache [] f hdel with ⟨k, hk⟩
    rw [hf, hnone] at hk
    cases hk

/-- C9 (witness): a standard single-marker filename is split at its `_v`
and keyed. -/
theorem passA_split_exactly_one_marker_witness :
    goSplit awsZipName "_v" = ["terraform-provider-aws", "3.74.0_linux_amd64.zip"]
    ∧ parseAKey awsZipName =
      some (trimPfx "terraform-provider-aws" "terraform-provider-" ++ "_" ++
        trimSfx "3.74.0_linux_amd64.zip" ".zip") :=
  ⟨by decide,
    (passA_split_exactly_one_marker awsZipName (by decide)).1
      "terraform-provider-aws" "3.74.0_linux_amd64.zip" (by decide)⟩

/-- C10: `collectUsedProviders` recovers every per-file, per-provider and
per-requirement failure internally: whenever it returns, its error is `nil`,
and consequently the caller's abort branch in `cleanUnusedProviders` can
never produce an error result once enumeration has succeeded. -/
theorem collect_nil_error_abort_unreachable :
    (∀ (envs : List String) (fs : EnvFS) (reg : Registry)
      (r : List String × Option String),
      collectUsedProviders envs fs reg = some r → r.2 = none)
    ∧ (∀ (envs : List String) (fs : EnvFS) (reg : Registry)
      (cache : List CacheFile) (r : PassBResult),
      cleanUnusedProviders (.ok envs) fs reg cache = some r →
      ∀ m : String, r.result ≠ .error m) := by
  constructor
  · exact collectUsedProviders_err_none
  · intro envs fs reg cache r h m
    rw [cleanUnusedProviders_eq] at h
    cases hd : passBDecision (.ok envs) fs reg with
    | none => rw [hd] at h; cases h
    | some d =>
      cases d with
      | none =>
        rw [hd] at h
        have hr := Option.some.inj h
        rw [← hr]
        simp [passBSkipMsg]
      | some used =>
        rw [hd] at h
        have hr := Option.some.inj h
        rw [← hr]
        simp

/-- C10 (witness): a concrete collection returns a `nil` error, and a
concrete successful walk result is not an error. -/
theorem collect_nil_error_abort_unreachable_witness :
    ((["aws_3.74.0"], (none : Option String)).2 = none)
    ∧ ((⟨[cacheA], [cacheOld], .ok ()⟩ : PassBResult).result ≠ .error "boom") :=
  ⟨collect_nil_error_abort_unreachable.1 ["dev"] exEnvFS exRegistry
      (["aws_3.74.0"], none) (by decide),
    collect_nil_error_abort_unreachable.2 ["dev"] exEnvFS exRegistry
      [cacheA, cacheOld] ⟨[cacheA], [cacheOld], .ok ()⟩ (by decide) "boom"⟩

/-- C4: `resolveProviderVersion` sorts the fetched versions descending and
returns the first (hence a highest) version satisfying the constraint, in its
original string form, and reports `no versions found` when nothing satisfies
it.  Maximality is stated for prerelease-free version lists (go-version's
comparator is not transitive across prereleases, so Go's unstable sort pins
down no order there); the concrete spec scenario resolves
`">= 4.0, < 5.0"` against `[3.9.0, 4.2.0, 4.5.1, 5.0.0]` to `4.5.1`. -/
theorem resolver_picks_latest_matching :
    (∀ (reg : Registry) (source constraint s : String),
      resolveProviderVersion reg source constraint = .ok s →
      ∃ avail cs v, getProviderAvailableVersions reg source = .ok avail
        ∧ newConstraint constraint = some cs
        ∧ v ∈ avail ∧ checkConstraints cs v = true ∧ s = v.original
        ∧ ((∀ u ∈ avail, u.pre = "") →
            ∀ w ∈ avail, checkConstraints cs w = true → versionCompare v w ≥ 0))
    ∧ (∀ (reg : Registry) (source constraint : String) (avail : List GoVersion)
        (cs : List VersionConstraint),
        getProviderAvailableVersions reg source = .ok avail →
        newConstraint constraint = some cs →
        (∀ w ∈ avail, checkConstraints cs w = false) →
        resolveProviderVersion reg source constraint =
          .error ("no versions found for provider " ++ source ++
            " matching constraint '" ++ constraint ++ "'"))
    ∧ resolveProviderVersion c4Registry "hashicorp/aws" ">= 4.0, < 5.0" = .ok "4.5.1" := by
  refine ⟨?_, ?_, by decide⟩
  · intro reg source constraint s hres
    cases havail : getProviderAvailableVersions reg source with
    | error e =>
      simp only [resolveProviderVersion, havail] at hres
      exact Except.noConfusion hres
    | ok avail =>
      simp only [resolveProviderVersion, havail] at hres
      cases hcs : newConstraint constraint with
      | none =>
        simp only [hcs] at hres
        exact Except.noConfusion hres
      | some cs =>
        simp only [hcs] at hres
        cases hfind : (sortVersionsDesc avail).find? (fun v => checkConstraints cs v) with
        | none =>
          simp only [hfind] at hres
          exact Except.noConfusion hres
        | some v =>
          simp only [hfind] at hres
          have hsv : s = v.original := (Except.ok.inj hres).symm
          refine ⟨avail, cs, v, rfl, rfl, ?_, ?_, hsv, ?_⟩
          · exact (mem_sortVersionsDesc v avail).mp (List.mem_of_find?_eq_some hfind)
          · exact List.find?_some hfind
          · intro hpre w hw hcw
            have hrefl : ∀ x : GoVersion, versionCompare x x ≥ 0 := by
              intro x
              simp [versionCompare_self]
            have hpair := sortVersionsDesc_pairwise hpre
            exact find?_pairwise_max hrefl (fun x => checkConstraints cs x)
              (sortVersionsDesc avail) v hpair hfind w
              ((mem_sortVersionsDesc w avail).mpr hw) hcw
  · intro reg source constraint avail cs havail hcs hnone
    have hfind : (sortVersionsDesc avail).find? (fun v => checkConstraints cs v) = none := by
      rw [List.find?_eq_none]
      intro x hx
      rw [hnone x ((mem_sortVersionsDesc x avail).mp hx)]
      simp
    simp only [resolveProviderVersion, havail, hcs, hfind]

/-- C4 (witness): the spec scenario, run through the theorem's soundness
part. -/
theorem resolver_picks_latest_matching_witness :
    ∃ avail cs v, getProviderAvailableVersions c4Registry "hashicorp/aws" = .ok avail
      ∧ newConstraint ">= 4.0, < 5.0" = some cs
      ∧ v ∈ avail ∧ checkConstraints cs v = true ∧ "4.5.1" = v.original
      ∧ ((∀ u ∈ avail, u.pre = "") →
          ∀ w ∈ avail, checkConstraints cs w = true → versionCompare v w ≥ 0) :=
  resolver_picks_latest_matching.1 c4Registry "hashicorp/aws" ">= 4.0, < 5.0"
    "4.5.1" (by decide)

/-- C6: reconciliation is idempotent; an immediate second run over the cache
a first run produced, with the same environment data and registry responses,
deletes zero files and leaves the cache unchanged. -/
theorem cleanup_idempotent (rd : Except String (List DirEntry)) (fs : EnvFS)
    (reg : Registry) (cache : List CacheFile) :
    cleanupRun rd fs reg (cleanupRun rd fs reg cache).1 =
      ((cleanupRun rd fs reg cache).1, []) := by
  have hnoopA : ∀ (l : List CacheFile), (keysA l).Nodup →
      cleanDuplicateProviders l = (l, []) :=
    fun l h => passAAux_id l [] h (fun x _ => List.not_mem_nil x)
  have hkeptN : (keysA (cleanDuplicateProviders cache).1).Nodup :=
    (passAAux_kept_keys cache []).1
  cases hd : passBDecision (getEnvironments rd) fs reg with
  | none =>
    simp only [cleanupRun_eq rd fs reg, hd]
    rw [hnoopA _ hkeptN]
  | some d =>
    cases d with
    | none =>
      simp only [cleanupRun_eq rd fs reg, hd]
      rw [hnoopA _ hkeptN]
      simp
    | some used =>
      simp only [cleanupRun_eq rd fs reg, hd]
      have hsub : (passBAux used (cleanDuplicateProviders cache).1).1.Sublist
          (cleanDuplicateProviders cache).1 := passBAux_kept_sublist used _
      have hsubk := hsub.filterMap (fun f => parseAKey f.name)
      have hnodup : (keysA (passBAux used (cleanDuplicateProviders cache).1).1).Nodup :=
        List.Nodup.sublist hsubk hkeptN
      have hA2 : cleanDuplicateProviders (passBAux used (cleanDuplicateProviders cache).1).1 =
          ((passBAux used (cleanDuplicateProviders cache).1).1, []) := hnoopA _ hnodup
      have hB2 : passBAux used (passBAux used (cleanDuplicateProviders cache).1).1 =
          ((passBAux used (cleanDuplicateProviders cache).1).1, []) :=
        passBAux_id used _ (passBAux_kept_safe used _)
      rw [hA2]
      dsimp only
      rw [hB2]
      simp

/-- C8: a configuration file that fails to parse is skipped on its own:
removing it from its environment's file list changes nothing in the
collected used set, so neither the other files of that environment nor any
sibling environment loses its resolved requirements. -/
theorem malformed_file_skipped (reg : Registry) (fs fs' : EnvFS)
    (e badPath msg : String) (pre post : List TfFile) (envs : List String)
    (h1 : envGlob fs e = .ok (pre ++ ⟨badPath, .error msg⟩ :: post))
    (h2 : envGlob fs' e = .ok (pre ++ post))
    (hother : ∀ e', e' ≠ e → envGlob fs e' = envGlob fs' e') :
    collectUsedProviders envs fs reg = collectUsedProviders envs fs' reg := by
  unfold collectUsedProviders
  rw [procEnvs_drop_err reg e badPath msg pre post h1 h2 hother envs []]

/-- C8 (witness): a malformed file in environment `dev` does not stop the
sibling environment `prod` from contributing `aws_3.74.0`. -/
theorem malformed_file_skipped_witness :
    collectUsedProviders ["dev", "prod"] badFileEnvFS exRegistry =
      collectUsedProviders ["dev", "prod"] goodFileEnvFS exRegistry
    ∧ collectUsedProviders ["dev", "prod"] badFileEnvFS exRegistry =
      some (["aws_3.74.0"], none) :=
  ⟨malformed_file_skipped exRegistry badFileEnvFS goodFileEnvFS "dev"
      "/envs/dev/config/dev/broken.tf" "parse failure" [] [] ["dev", "prod"]
      rfl rfl
      (by
        intro e' h
        have hdev : decide (("dev" : String) = e') = false :=
          decide_eq_false (fun hh => h hh.symm)
        simp only [envGlob, badFileEnvFS, goodFileEnvFS, List.find?, hdev]),
    by decide⟩

end Tfvenv
